import Mathlib

/-!
# Verification of the codespell spellchecking core

A shallow embedding of `codespell_lib/spellchecker.py`.  Python strings are
modelled as `List Char` (one element per code point, matching Python's
indexing and slicing).  The Python `dict` used for the misspelling table is
modelled as an association list where assignment prepends; lookup takes the
most recently assigned binding, which reproduces the dict's last-write-wins
assignment semantics.  File input is modelled by passing the file's lines
(`for line in f`) as a list, and the data directory as a function from file
names to lines.
-/

namespace Codespell

/-- Python `str`, as a list of code points. -/
abbrev Str := List Char

/-- The characters Python's `str.strip()` / `lstrip()` remove (ASCII whitespace:
space, tab, newline, carriage return, vertical tab, form feed). -/
def isSpaceChar (c : Char) : Bool :=
  c = ' ' || c = '\t' || c = '\n' || c = '\r' || c = '\x0b' || c = '\x0c'

/-- Python `s.lstrip()` (no argument): drop leading whitespace. -/
def lstrip (s : Str) : Str := s.dropWhile isSpaceChar

/-- Python-style right strip: drop trailing whitespace. -/
def rstrip (s : Str) : Str := (s.reverse.dropWhile isSpaceChar).reverse

/-- Python `s.strip()`: drop whitespace at both ends. -/
def strip (s : Str) : Str := rstrip (lstrip s)

/-- Python `s.lower()` (restricted to ASCII case mapping, which covers every
dictionary key and datum the spellchecker handles). -/
def lower (s : Str) : Str := s.map Char.toLower

/-- Python `s.split(sep)` for a single-character separator `sep`:
split at every occurrence, keeping empty segments. -/
def splitOnChar (sep : Char) : Str → List Str
  | [] => [[]]
  | c :: cs =>
    if c = sep then [] :: splitOnChar sep cs
    else
      match splitOnChar sep cs with
      | [] => [[c]]
      | h :: t => (c :: h) :: t

/-- Python `s.rsplit(sep, 1)` for a single character, returning `none` when
`sep` does not occur in `s` and otherwise the parts either side of the LAST
occurrence. -/
def rsplitOnce (sep : Char) : Str → Option (Str × Str)
  | [] => none
  | c :: cs =>
    match rsplitOnce sep cs with
    | some (l, r) => some (c :: l, r)
    | none => if c = sep then some ([], cs) else none

/-- Python `line.split("->")`: split at every non-overlapping occurrence of
the two-character separator `->`, scanning left to right. -/
def splitOnArrow : Str → List Str
  | '-' :: '>' :: rest => [] :: splitOnArrow rest
  | c :: rest =>
    match splitOnArrow rest with
    | [] => [[c]]
    | h :: t => (c :: h) :: t
  | [] => [[]]

/-- `str.maketrans(x, y)` followed by `s.translate(...)` for one
single-character pair: replace every occurrence of `x` by `y`. -/
def translateChar (x y : Char) (s : Str) : Str :=
  s.map fun c => if c = x then y else c

/-- `alt_chars`: the configured alternate-character pairs (ASCII apostrophe
to typographic right single quote); each source pair is a pair of
one-character strings, modelled here by the characters themselves. -/
def alt_chars : List (Char × Char) := [('\'', '’')]

/-- The `Misspelling` record: candidates, confident-fix flag, reason. -/
structure Misspelling where
  candidates : List Str
  fix : Bool
  reason : Str
deriving DecidableEq

/-- The `Dict[str, Misspelling]` table.  Assignment prepends; lookup takes the
most recent binding. -/
abbrev MisspellingTable := List (Str × Misspelling)

/-- Python dict assignment `misspellings[key] = value`. -/
def tableSet (key : Str) (value : Misspelling) (t : MisspellingTable) :
    MisspellingTable :=
  (key, value) :: t

/-- Python dict lookup `misspellings.get(key)` (also `key in misspellings`
via `Option.isSome`). -/
def lookupTable : MisspellingTable → Str → Option Misspelling
  | [], _ => none
  | (k, v) :: t, key => if key = k then some v else lookupTable t key

/-- `_add_misspelling(key, data, misspellings)`: strip the data, split off a
reason after the last comma when one is present, and assign the parsed
`Misspelling` to `misspellings[key]`. -/
def _add_misspelling (key data : Str) (misspellings : MisspellingTable) :
    MisspellingTable :=
  let data1 := strip data
  let parts :=
    match rsplitOnce ',' data1 with
    | some (d, r) => (d, false, lstrip r)
    | none => (data1, true, ([] : Str))
  tableSet key
    ⟨(splitOnChar ',' parts.1).map strip, parts.2.1, parts.2.2⟩
    misspellings

/-- The errors the loading operations can raise:
`ValueError` from `[key, data] = line.split("->")` (a malformed record),
`UnknownBuiltinDictionaryError`, and
`BuiltinDictionariesAlreadyLoadedError`. -/
inductive LoadError where
  | malformedRecord (line : Str)
  | unknownBuiltinDictionary (name : Str)
  | builtinAlreadyLoaded
deriving DecidableEq

/-- The body of the `for line in f` loop of `load_dictionary_from_file`:
split on `->` (raising on any line that does not split into exactly two
parts), lowercase key and data, add the record unless the key is ignored,
then produce the alternate-character expansions, each added unless the
alternate key is ignored. -/
def processDictLine (ignore_words : List Str) (t : MisspellingTable)
    (line : Str) : Option LoadError × MisspellingTable :=
  match splitOnArrow line with
  | [key0, data0] =>
    let key := lower key0
    let data := lower data0
    let t1 := if key ∈ ignore_words then t else _add_misspelling key data t
    let t2 := alt_chars.foldl
      (fun tb xy =>
        if xy.1 ∈ key then
          let alt_key := translateChar xy.1 xy.2 key
          let alt_data := translateChar xy.1 xy.2 data
          if alt_key ∈ ignore_words then tb
          else _add_misspelling alt_key alt_data tb
        else tb)
      t1
    (none, t2)
  | _ => (some (.malformedRecord line), t)

/-- The line loop of `load_dictionary_from_file`, over the file's lines.
An exception stops processing and leaves the already-merged lines in the
table, as in Python. -/
def loadDictLines (ignore_words : List Str) :
    List Str → MisspellingTable → Option LoadError × MisspellingTable
  | [], t => (none, t)
  | line :: rest, t =>
    match processDictLine ignore_words t line with
    | (some e, t') => (some e, t')
    | (none, t') => loadDictLines ignore_words rest t'

/-- One entry of `_builtin_dictionaries`: name, description, file suffix and
the aspell test metadata (unused by any operation modelled here). -/
structure BuiltinDictionary where
  name : Str
  desc : Str
  suffix : Str
  err_in_aspell : Option Bool
  corr_in_aspell : Option Bool
  err_dicts : Option (List Str)
  rep_dicts : Option (List Str)

/-- The `supported_languages_en` tuple. -/
def supported_languages_en : List Str :=
  ["en".data, "en_GB".data, "en_US".data, "en_CA".data, "en_AU".data]

/-- The static `_builtin_dictionaries` catalogue. -/
def _builtin_dictionaries : List BuiltinDictionary :=
  [⟨"clear".data, "for unambiguous errors".data, "".data,
      some false, none, some supported_languages_en, none⟩,
   ⟨"rare".data, "for rare (but valid) words that are likely to be errors".data,
      "_rare".data, none, none, none, none⟩,
   ⟨"informal".data, "for making informal words more formal".data,
      "_informal".data, some true, some true,
      some supported_languages_en, some supported_languages_en⟩,
   ⟨"usage".data, "for replacing phrasing with recommended terms".data,
      "_usage".data, none, none, none, none⟩,
   ⟨"code".data, "for words from code and/or mathematics that are likely to be typos in other contexts (such as uint)".data,
      "_code".data, none, none, none, none⟩,
   ⟨"names".data, "for valid proper names that might be typos".data,
      "_names".data, none, none, none, none⟩,
   ⟨"en-GB_to_en-US".data, "for corrections from en-GB to en-US".data,
      "_en-GB_to_en-US".data, some true, some true,
      ["en_GB".data], some ["en_US".data]⟩]

/-- Whether a name has an entry in the `_builtin_dictionaries` catalogue. -/
def isBuiltinName (name : Str) : Bool :=
  (_builtin_dictionaries.find? fun b => b.name = name).isSome

/-- The file name `f"dictionary{builtin[2]}.txt"` for a catalogue entry. -/
def dictionaryFileName (suffix : Str) : Str :=
  "dictionary".data ++ suffix ++ ".txt".data

/-- Python string comparison `a <= b`: lexicographic on code points. -/
def strLeB : Str → Str → Bool
  | [], _ => true
  | _ :: _, [] => false
  | a :: as, b :: bs => if a < b then true else if a = b then strLeB as bs else false

/-- The relation sorted by `sorted(...)` on Python strings. -/
def strLe (a b : Str) : Prop := strLeB a b = true

instance : DecidableRel strLe := fun a b =>
  inferInstanceAs (Decidable (strLeB a b = true))

/-- Python `sorted(set(names))`: de-duplicate, then sort lexicographically. -/
def sortedDedup (names : List Str) : List Str :=
  List.insertionSort strLe names.dedup

/-- The engine state: the misspelling table, the `_builtin_loaded` seal flag
and the case-sensitive ignore set. -/
structure Spellchecker where
  misspellings : MisspellingTable
  builtin_loaded : Bool
  ignore_words_cased : List Str
deriving DecidableEq

/-- `Spellchecker(builtin_dictionaries=None)`: the engine before any load. -/
def Spellchecker.initial : Spellchecker :=
  { misspellings := [], builtin_loaded := false, ignore_words_cased := [] }

/-- `load_dictionary_from_file`, with the opened file's lines passed in
(reading the file is external I/O). -/
def Spellchecker.load_dictionary_from_file (sc : Spellchecker)
    (file_lines : List Str) (ignore_words : List Str) :
    Option LoadError × Spellchecker :=
  let r := loadDictLines ignore_words file_lines sc.misspellings
  (r.1, { sc with misspellings := r.2 })

/-- `_load_builtin_dictionary` on the table: scan the catalogue for the name,
load the corresponding dictionary file, or raise
`UnknownBuiltinDictionaryError`.  `files` maps a file name to its lines. -/
def _load_builtin_dictionary (files : Str → List Str) (ignore_words : List Str)
    (name : Str) (t : MisspellingTable) : Option LoadError × MisspellingTable :=
  match _builtin_dictionaries.find? (fun b => b.name = name) with
  | some b => loadDictLines ignore_words (files (dictionaryFileName b.suffix)) t
  | none => (some (.unknownBuiltinDictionary name), t)

/-- The `for name in sorted(set(builtin_dictionaries))` loop of
`load_builtin_dictionaries`: an exception stops the loop, keeping the
already-merged sources. -/
def loadBuiltinList (files : Str → List Str) (ignore_words : List Str) :
    List Str → MisspellingTable → Option LoadError × MisspellingTable
  | [], t => (none, t)
  | n :: ns, t =>
    match _load_builtin_dictionary files ignore_words n t with
    | (some e, t') => (some e, t')
    | (none, t') => loadBuiltinList files ignore_words ns t'

/-- `load_builtin_dictionaries`: raise when already loaded, otherwise process
the requested names in sorted de-duplicated order and finally set the
`_builtin_loaded` flag. -/
def Spellchecker.load_builtin_dictionaries (sc : Spellchecker)
    (files : Str → List Str) (builtin_dictionaries : List Str)
    (ignore_words : List Str) : Option LoadError × Spellchecker :=
  if sc.builtin_loaded then (some .builtinAlreadyLoaded, sc)
  else
    match loadBuiltinList files ignore_words (sortedDedup builtin_dictionaries)
        sc.misspellings with
    | (some e, t') => (some e, { sc with misspellings := t' })
    | (none, t') =>
      (none, { sc with misspellings := t', builtin_loaded := true })

/-- `check_lower_cased_word`. -/
def Spellchecker.check_lower_cased_word (sc : Spellchecker) (word : Str) :
    Option Misspelling :=
  lookupTable sc.misspellings word

/-- A token, as the `Token` protocol exposes it: the matched substring
(`group()`) and its start offset in the line (`start()`). -/
structure Token where
  group : Str
  start : Nat
deriving DecidableEq

/-- A `DetectedMisspelling`. -/
structure DetectedMisspelling where
  word : Str
  lword : Str
  misspelling : Misspelling
  token : Token
deriving DecidableEq

/-- The letters of `word.startswith(("a", "b", "f", "n", "r", "t", "v"))`:
bell, backspace, formfeed, newline, carriage-return, tab, vtab. -/
def escapeLetters : List Char := ['a', 'b', 'f', 'n', 'r', 't', 'v']

/-- `word.startswith(("a", "b", "f", "n", "r", "t", "v"))`. -/
def startsWithEscapeLetter : Str → Bool
  | [] => false
  | c :: _ => escapeLetters.contains c

/-- The body of the token loop of `spellcheck_line`, for one token:
`none` when the token is skipped, otherwise the yielded issue.
`line[char_before_idx] == "\\"` is modelled with an in-range index check
(a negative index is rejected by the code's `char_before_idx >= 0` guard). -/
def checkToken (misspellings : MisspellingTable)
    (ignore_words_cased : List Str) (extra_words_to_ignore : List Str)
    (line : Str) (token : Token) : Option DetectedMisspelling :=
  let word := token.group
  if word ∈ ignore_words_cased then none
  else
    let lword := lower word
    match lookupTable misspellings lword with
    | none => none
    | some misspelling =>
      if lword ∈ extra_words_to_ignore then none
      else if 1 ≤ token.start ∧ line.get? (token.start - 1) = some '\\' ∧
          startsWithEscapeLetter word = true ∧
          lookupTable misspellings (lword.drop 1) = none then none
      else some ⟨word, lword, misspelling, token⟩

/-- `spellcheck_line`: tokenize the line and yield the detected issues. -/
def Spellchecker.spellcheck_line (sc : Spellchecker) (line : Str)
    (tokenizer : Str → List Token) (extra_words_to_ignore : List Str) :
    List DetectedMisspelling :=
  (tokenizer line).filterMap
    (checkToken sc.misspellings sc.ignore_words_cased extra_words_to_ignore line)

/-- A table-mutating operation on the engine: a custom dictionary load or a
bulk built-in load (the constructor's built-in load is the latter applied to
the fresh engine). -/
inductive LoadOp where
  | fromFile (file_lines : List Str) (ignore_words : List Str)
  | builtins (files : Str → List Str) (names : List Str)
      (ignore_words : List Str)

/-- Run one operation, keeping the engine state it leaves behind whether or
not it raised. -/
def applyOp (sc : Spellchecker) : LoadOp → Spellchecker
  | .fromFile file_lines ignore_words =>
    (sc.load_dictionary_from_file file_lines ignore_words).2
  | .builtins files names ignore_words =>
    (sc.load_builtin_dictionaries files names ignore_words).2

/-- Run a sequence of load operations from a fresh engine. -/
def applyOps (ops : List LoadOp) : Spellchecker :=
  ops.foldl applyOp Spellchecker.initial

/-! ## Helper lemmas about the string primitives and the table -/

theorem lookupTable_tableSet_self (t : MisspellingTable) (key : Str)
    (v : Misspelling) : lookupTable (tableSet key v t) key = some v := by
  simp [tableSet, lookupTable]

theorem lookupTable_tableSet_ne (t : MisspellingTable) (key key' : Str)
    (v : Misspelling) (h : key' ≠ key) :
    lookupTable (tableSet key v t) key' = lookupTable t key' := by
  simp [tableSet, lookupTable, h]

theorem splitOnChar_ne_nil (sep : Char) (s : Str) : splitOnChar sep s ≠ [] := by
  induction s with
  | nil => simp [splitOnChar]
  | cons c cs ih =>
    simp only [splitOnChar]
    split
    · simp
    · split
      · simp
      · simp

theorem splitOnChar_of_not_mem (sep : Char) (s : Str) (h : sep ∉ s) :
    splitOnChar sep s = [s] := by
  induction s with
  | nil => rfl
  | cons c cs ih =>
    simp only [List.mem_cons, not_or] at h
    simp only [splitOnChar, if_neg (Ne.symm h.1), ih h.2]

theorem rsplitOnce_eq_none_iff (sep : Char) (s : Str) :
    rsplitOnce sep s = none ↔ sep ∉ s := by
  induction s with
  | nil => simp [rsplitOnce]
  | cons c cs ih =>
    simp only [rsplitOnce, List.mem_cons]
    cases h : rsplitOnce sep cs with
    | some p => simp [h] at ih; simp [ih]
    | none =>
      simp [h] at ih
      by_cases hc : c = sep
      · simp [hc]
      · have : ¬sep = c := fun hcc => hc hcc.symm
        simp [hc, ih, this]

theorem dropWhile_dropWhile (p : Char → Bool) (s : Str) :
    List.dropWhile p (List.dropWhile p s) = List.dropWhile p s := by
  induction s with
  | nil => rfl
  | cons c cs ih =>
    by_cases h : p c
    · simp [List.dropWhile_cons, h, ih]
    · simp [List.dropWhile_cons, h]

theorem dropWhile_append_singleton (p : Char → Bool) (c : Char)
    (h : p c = false) (s : Str) :
    (s ++ [c]).dropWhile p = s.dropWhile p ++ [c] := by
  induction s with
  | nil => simp [List.dropWhile_cons, h]
  | cons a as ih =>
    by_cases ha : p a
    · simp [List.dropWhile_cons, ha, ih]
    · simp [List.dropWhile_cons, ha]

theorem rstrip_cons (c : Char) (h : isSpaceChar c = false) (s : Str) :
    rstrip (c :: s) = c :: rstrip s := by
  simp only [rstrip, List.reverse_cons]
  rw [dropWhile_append_singleton isSpaceChar c h, List.reverse_append]
  rfl

theorem rstrip_rstrip (s : Str) : rstrip (rstrip s) = rstrip s := by
  simp only [rstrip, List.reverse_reverse]
  rw [dropWhile_dropWhile]

theorem lstrip_head_not_space (s : Str) (c : Char) (cs : Str)
    (h : lstrip s = c :: cs) : isSpaceChar c = false := by
  induction s with
  | nil => simp [lstrip] at h
  | cons a as ih =>
    by_cases ha : isSpaceChar a
    · exact ih (by simpa [lstrip, List.dropWhile_cons, ha] using h)
    · simp only [lstrip, List.dropWhile_cons, ha] at h
      simp only [Bool.false_eq_true, if_false] at h
      cases h
      simpa using ha

theorem lstrip_rstrip_of_lstripped (s : Str) (h : lstrip s = s) :
    lstrip (rstrip s) = rstrip s := by
  cases hs : s with
  | nil => simp [rstrip, lstrip]
  | cons c cs =>
    have hc : isSpaceChar c = false := lstrip_head_not_space s c cs (by rw [h, hs])
    rw [rstrip_cons c hc]
    simp [lstrip, List.dropWhile_cons, hc]

theorem lstrip_lstrip (s : Str) : lstrip (lstrip s) = lstrip s :=
  dropWhile_dropWhile isSpaceChar s

theorem strip_strip (s : Str) : strip (strip s) = strip s := by
  simp only [strip]
  rw [lstrip_rstrip_of_lstripped (lstrip s) (lstrip_lstrip s), rstrip_rstrip]

theorem mem_lstrip_of_mem (s : Str) (c : Char) (hc : isSpaceChar c = false)
    (h : c ∈ s) : c ∈ lstrip s := by
  induction s with
  | nil => simp at h
  | cons a as ih =>
    by_cases ha : isSpaceChar a
    · rcases List.mem_cons.1 h with rfl | h'
      · rw [ha] at hc; cases hc
      · simpa [lstrip, List.dropWhile_cons, ha] using ih h'
    · simpa [lstrip, List.dropWhile_cons, ha] using h

theorem mem_of_mem_lstrip (s : Str) (c : Char) (h : c ∈ lstrip s) : c ∈ s :=
  (List.dropWhile_sublist isSpaceChar).mem h

theorem mem_rstrip_of_mem (s : Str) (c : Char) (hc : isSpaceChar c = false)
    (h : c ∈ s) : c ∈ rstrip s := by
  have : c ∈ lstrip s.reverse :=
    mem_lstrip_of_mem s.reverse c hc (List.mem_reverse.2 h)
  simpa [rstrip, lstrip] using List.mem_reverse.2 this

theorem mem_of_mem_rstrip (s : Str) (c : Char) (h : c ∈ rstrip s) : c ∈ s := by
  have h1 : c ∈ lstrip s.reverse := by
    simpa [rstrip] using (List.mem_reverse).2 h
  have h2 := mem_of_mem_lstrip s.reverse c h1
  simpa using h2

theorem mem_strip_of_mem (s : Str) (c : Char) (hc : isSpaceChar c = false)
    (h : c ∈ s) : c ∈ strip s :=
  mem_rstrip_of_mem _ c hc (mem_lstrip_of_mem s c hc h)

theorem mem_of_mem_strip (s : Str) (c : Char) (h : c ∈ strip s) : c ∈ s :=
  mem_of_mem_lstrip s c (mem_of_mem_rstrip _ c h)

/-! ## The lexicographic order used by `sorted(set(...))` -/

theorem strLeB_total (a b : Str) : strLeB a b = true ∨ strLeB b a = true := by
  induction a generalizing b with
  | nil => left; rfl
  | cons x xs ih =>
    cases b with
    | nil => right; rfl
    | cons y ys =>
      rcases lt_trichotomy x y with hlt | heq | hgt
      · left; simp [strLeB, hlt]
      · subst heq
        rcases ih ys with h | h
        · left; simp [strLeB, h]
        · right; simp [strLeB, h]
      · right; simp [strLeB, hgt]

theorem strLeB_trans (a b c : Str) (hab : strLeB a b = true)
    (hbc : strLeB b c = true) : strLeB a c = true := by
  induction a generalizing b c with
  | nil => rfl
  | cons x xs ih =>
    cases b with
    | nil => simp [strLeB] at hab
    | cons y ys =>
      cases c with
      | nil => simp [strLeB] at hbc
      | cons z zs =>
        simp only [strLeB] at hab hbc ⊢
        by_cases hxy : x < y
        · by_cases hyz : y < z
          · simp [lt_trans hxy hyz]
          · by_cases hyz' : y = z
            · subst hyz'; simp [hxy]
            · simp [hyz, hyz'] at hbc
        · by_cases hxy' : x = y
          · subst hxy'
            rw [if_neg hxy, if_pos rfl] at hab
            by_cases hyz : x < z
            · simp [hyz]
            · by_cases hyz' : x = z
              · subst hyz'
                rw [if_neg hyz, if_pos rfl] at hbc ⊢
                exact ih ys zs hab hbc
              · simp [hyz, hyz'] at hbc
          · simp [hxy, hxy'] at hab

theorem strLeB_antisymm (a b : Str) (hab : strLeB a b = true)
    (hba : strLeB b a = true) : a = b := by
  induction a generalizing b with
  | nil =>
    cases b with
    | nil => rfl
    | cons y ys => simp [strLeB] at hba
  | cons x xs ih =>
    cases b with
    | nil => simp [strLeB] at hab
    | cons y ys =>
      simp only [strLeB] at hab hba
      by_cases hxy : x < y
      · by_cases hyx : y < x
        · exact absurd hyx (lt_asymm hxy)
        · by_cases hyx' : y = x
          · exact absurd (hyx' ▸ hxy) (lt_irrefl y)
          · simp [hyx, hyx'] at hba
      · by_cases hxy' : x = y
        · subst hxy'
          rw [if_neg hxy, if_pos rfl] at hab hba
          rw [ih ys hab hba]
        · simp [hxy, hxy'] at hab

instance : IsTotal Str strLe := ⟨fun a b => strLeB_total a b⟩

instance : IsTrans Str strLe := ⟨fun a b c => strLeB_trans a b c⟩

instance : IsAntisymm Str strLe := ⟨fun a b => strLeB_antisymm a b⟩

theorem sortedDedup_eq_of_toFinset_eq (n1 n2 : List Str)
    (h : n1.toFinset = n2.toFinset) : sortedDedup n1 = sortedDedup n2 := by
  have hperm : List.Perm n1.dedup n2.dedup := by
    rw [List.perm_ext_iff_of_nodup (List.nodup_dedup n1) (List.nodup_dedup n2)]
    intro a
    rw [List.mem_dedup, List.mem_dedup, ← List.mem_toFinset, h,
      List.mem_toFinset]
  exact List.eq_of_perm_of_sorted
    ((List.perm_insertionSort strLe n1.dedup).trans
      (hperm.trans (List.perm_insertionSort strLe n2.dedup).symm))
    (List.sorted_insertionSort strLe n1.dedup)
    (List.sorted_insertionSort strLe n2.dedup)

/-! ## Claim theorems -/

/-- C3: last write wins.  Assigning record A and then record B to the same
key in the misspelling table (the `misspellings[key] = Misspelling(...)`
assignment of `_add_misspelling`, whether within one load call or across
several) leaves the table holding exactly record B at that key, regardless
of the candidates, fix flag and reason of either record. -/
theorem last_write_wins (t : MisspellingTable) (key : Str)
    (recA recB : Misspelling) :
    lookupTable (tableSet key recB (tableSet key recA t)) key = some recB := by
  simp [tableSet, lookupTable]

/-- C4: the comma/reason parsing rule of `_add_misspelling`.  When the data
field contains a comma, the stored record's candidates are the
whitespace-trimmed comma-separated segments before the last comma, the reason
is the text after the last comma with leading whitespace stripped, and the
confident-fix flag is false; when the data field contains no comma, the
record is the single trimmed datum with a confident fix and empty reason. -/
theorem comma_reason_rule (t : MisspellingTable) (key data : Str) :
    (',' ∈ data →
      ∃ d r, rsplitOnce ',' (strip data) = some (d, r) ∧
        lookupTable (_add_misspelling key data t) key =
          some ⟨(splitOnChar ',' d).map strip, false, lstrip r⟩) ∧
    (',' ∉ data →
      lookupTable (_add_misspelling key data t) key =
        some ⟨[strip data], true, []⟩) := by
  constructor
  · intro hmem
    have hmem' : ',' ∈ strip data := mem_strip_of_mem data ',' rfl hmem
    cases hsplit : rsplitOnce ',' (strip data) with
    | none => exact absurd hmem' ((rsplitOnce_eq_none_iff ',' (strip data)).1 hsplit)
    | some p =>
      refine ⟨p.1, p.2, rfl, ?_⟩
      simp only [_add_misspelling, hsplit]
      exact lookupTable_tableSet_self t key _
  · intro hmem
    have hmem' : ',' ∉ strip data := fun hc => hmem (mem_of_mem_strip data ',' hc)
    have hsplit : rsplitOnce ',' (strip data) = none :=
      (rsplitOnce_eq_none_iff ',' (strip data)).2 hmem'
    simp only [_add_misspelling, hsplit]
    rw [splitOnChar_of_not_mem ',' (strip data) hmem', List.map_cons,
      List.map_nil, strip_strip]
    exact lookupTable_tableSet_self t key _

/-- C4, witness: the record `foo->bar, baz, this is why` stores candidates
`bar`, `baz`, reason `this is why` and no confident fix, and `foo->bar`
stores the single candidate `bar` as a confident fix with empty reason. -/
theorem comma_reason_rule_witness :
    (∃ d r, rsplitOnce ',' (strip ("bar, baz, this is why".data)) = some (d, r) ∧
      lookupTable (_add_misspelling ("foo".data) ("bar, baz, this is why".data) [])
          ("foo".data) =
        some ⟨(splitOnChar ',' d).map strip, false, lstrip r⟩) ∧
    lookupTable (_add_misspelling ("foo".data) ("bar".data) []) ("foo".data) =
      some ⟨["bar".data], true, []⟩ :=
  ⟨(comma_reason_rule [] ("foo".data) ("bar, baz, this is why".data)).1
      (by decide),
   (comma_reason_rule [] ("foo".data) ("bar".data)).2 (by decide)⟩

/-- C2, counterexample: the line `a->b->c` contains the `->` separator (it
even splits into three parts), yet loading it raises the malformed-record
error, because `[key, data] = line.split("->")` requires exactly two parts;
the claim that a line containing `->` more than once parses successfully is
false. -/
theorem malformed_on_double_arrow_counterexample :
    splitOnArrow ("a->b->c".data) = ["a".data, "b".data, "c".data] ∧
    (loadDictLines [] ["a->b->c".data] []).1 =
      some (.malformedRecord ("a->b->c".data)) := by
  decide

theorem processDictLine_fst_eq_none_iff (ignore_words : List Str)
    (t : MisspellingTable) (line : Str) :
    (processDictLine ignore_words t line).1 = none ↔
      (splitOnArrow line).length = 2 := by
  unfold processDictLine
  rcases h : splitOnArrow line with _ | ⟨a, _ | ⟨b, _ | ⟨c, l⟩⟩⟩ <;> simp

/-- C2, amended: loading a dictionary source raises the malformed-record
error if and only if some line does not split into exactly two parts on the
`->` separator (so a line lacking `->` is rejected, and so is a line
containing `->` more than once); a line with exactly one occurrence of `->`
is split at it into key and data. -/
theorem malformed_record_iff (ignore_words : List Str) (lines : List Str)
    (t : MisspellingTable) :
    (loadDictLines ignore_words lines t).1 = none ↔
      ∀ line ∈ lines, (splitOnArrow line).length = 2 := by
  induction lines generalizing t with
  | nil => simp [loadDictLines]
  | cons line rest ih =>
    simp only [loadDictLines, List.mem_cons]
    cases hp : processDictLine ignore_words t line with
    | mk e t' =>
      cases e with
      | some err =>
        simp only []
        constructor
        · intro h; cases h
        · intro h
          have h2 := (processDictLine_fst_eq_none_iff ignore_words t line).2
            (h line (Or.inl rfl))
          rw [hp] at h2
          cases h2
      | none =>
        have h1 : (splitOnArrow line).length = 2 :=
          (processDictLine_fst_eq_none_iff ignore_words t line).1 (by rw [hp])
        simp only []
        rw [ih t']
        constructor
        · intro h l hl
          rcases hl with rfl | hl
          · exact h1
          · exact h l hl
        · intro h l hl
          exact h l (Or.inr hl)

theorem translateChar_ne_of_mem (x y : Char) (hxy : y ≠ x) (s : Str)
    (hx : x ∈ s) : translateChar x y s ≠ s := by
  induction s with
  | nil => cases hx
  | cons c cs ih =>
    intro heq
    simp only [translateChar, List.map_cons, List.cons.injEq] at heq
    by_cases hc : c = x
    · rw [if_pos hc] at heq
      exact hxy (heq.1.trans hc)
    · rcases List.mem_cons.1 hx with hx' | hx'
      · exact hc hx'.symm
      · exact ih hx' (by simpa [translateChar] using heq.2)

theorem lookupTable_add_misspelling_ne (t : MisspellingTable)
    (key key' data : Str) (h : key' ≠ key) :
    lookupTable (_add_misspelling key data t) key' = lookupTable t key' :=
  lookupTable_tableSet_ne t key key' _ h

/-- C1, counterexample: loading the single record `don't->do not` with
`don't` in the exclusion list succeeds, creates no entry for `don't` — but
it does create the alternate-character entry for `don’t`, so excluding a key
does not suppress the alternate expansion. -/
theorem exclude_key_alternate_counterexample :
    (loadDictLines ["don't".data] ["don't->do not".data] []).1 = none ∧
    lookupTable (loadDictLines ["don't".data] ["don't->do not".data] []).2
      ("don't".data) = none ∧
    lookupTable (loadDictLines ["don't".data] ["don't->do not".data] []).2
      ("don’t".data) = some ⟨["do not".data], true, []⟩ := by
  decide

/-- C1, amended: when a record's (lowercased) key is in the exclusion list,
no entry is stored for the key itself, but the alternate-character expansion
is still performed: if the key contains an apostrophe and the expanded key is
not itself excluded, loading the line is exactly loading the alternate
record, and the table entry at the original key is unchanged. -/
theorem exclude_key_suppresses_only_key (ignore_words : List Str)
    (t : MisspellingTable) (line key0 data0 : Str)
    (hsplit : splitOnArrow line = [key0, data0])
    (hkey : lower key0 ∈ ignore_words)
    (hapo : '\'' ∈ lower key0)
    (halt : translateChar '\'' '’' (lower key0) ∉ ignore_words) :
    loadDictLines ignore_words [line] t =
      (none, _add_misspelling (translateChar '\'' '’' (lower key0))
        (translateChar '\'' '’' (lower data0)) t) ∧
    lookupTable (loadDictLines ignore_words [line] t).2 (lower key0) =
      lookupTable t (lower key0) := by
  have h1 : loadDictLines ignore_words [line] t =
      (none, _add_misspelling (translateChar '\'' '’' (lower key0))
        (translateChar '\'' '’' (lower data0)) t) := by
    simp [loadDictLines, processDictLine, hsplit, alt_chars, hkey, hapo, halt]
  refine ⟨h1, ?_⟩
  rw [h1]
  exact lookupTable_add_misspelling_ne t _ _ _
    (fun he => translateChar_ne_of_mem '\'' '’' (by decide) (lower key0) hapo
      he.symm)

/-- C1, amended, witness: the `don't->do not` record with `don't` excluded
(and `don’t` not excluded) loads exactly the `don’t` alternate record and
leaves the entry at `don't` unchanged. -/
theorem exclude_key_suppresses_only_key_witness :
    loadDictLines ["don't".data] ["don't->do not".data] [] =
      (none, _add_misspelling (translateChar '\'' '’' (lower ("don't".data)))
        (translateChar '\'' '’' (lower ("do not".data))) []) ∧
    lookupTable (loadDictLines ["don't".data] ["don't->do not".data] []).2
        (lower ("don't".data)) =
      lookupTable ([] : MisspellingTable) (lower ("don't".data)) :=
  exclude_key_suppresses_only_key ["don't".data] [] ("don't->do not".data)
    ("don't".data) ("do not".data) (by decide) (by decide) (by decide)
    (by decide)

/-- C5: the seal guard.  Once a bulk built-in load has completed successfully
on an engine, any second bulk built-in load fails with the already-loaded
error and returns the engine state exactly as the first call left it (no
entry added, removed or changed). -/
theorem seal_guard (files : Str → List Str)
    (ignore_words names names2 : List Str) (sc sc1 : Spellchecker)
    (hfirst : sc.load_builtin_dictionaries files names ignore_words =
      (none, sc1)) :
    sc1.load_builtin_dictionaries files names2 ignore_words =
      (some .builtinAlreadyLoaded, sc1) := by
  have hsealed : sc1.builtin_loaded = true := by
    unfold Spellchecker.load_builtin_dictionaries at hfirst
    by_cases h : sc.builtin_loaded
    · simp [h] at hfirst
    · simp only [h, Bool.false_eq_true, if_false] at hfirst
      cases hm : loadBuiltinList files ignore_words (sortedDedup names)
          sc.misspellings with
      | mk e t' =>
        rw [hm] at hfirst
        cases e with
        | some err => simp at hfirst
        | none =>
          simp only [Prod.mk.injEq] at hfirst
          rw [← hfirst.2]
  unfold Spellchecker.load_builtin_dictionaries
  simp [hsealed]

/-- C5, witness: a sealed engine rejects a second bulk built-in load and is
returned unchanged. -/
theorem seal_guard_witness :
    Spellchecker.load_builtin_dictionaries
        { misspellings := [], builtin_loaded := true, ignore_words_cased := [] }
        (fun _ => []) ["clear".data] [] =
      (some .builtinAlreadyLoaded,
        { misspellings := [], builtin_loaded := true,
          ignore_words_cased := [] }) :=
  seal_guard (fun _ => []) [] ["clear".data] ["clear".data]
    Spellchecker.initial
    { misspellings := [], builtin_loaded := true, ignore_words_cased := [] }
    (by decide)

/-- C6: canonical built-in load order.  The bulk built-in load sorts the
de-duplicated requested names, so two requests naming the same set of
built-in sources — in any order, with or without duplicates — produce
identical results on the same engine, even when the sources conflict on a
key. -/
theorem builtin_load_canonical_order (files : Str → List Str)
    (ignore_words : List Str) (names1 names2 : List Str) (sc : Spellchecker)
    (h : names1.toFinset = names2.toFinset) :
    sc.load_builtin_dictionaries files names1 ignore_words =
      sc.load_builtin_dictionaries files names2 ignore_words := by
  unfold Spellchecker.load_builtin_dictionaries
  rw [sortedDedup_eq_of_toFinset_eq names1 names2 h]

/-- C6, witness: requesting `rare, clear` and requesting
`clear, rare, clear` load identically on a fresh engine. -/
theorem builtin_load_canonical_order_witness :
    Spellchecker.load_builtin_dictionaries Spellchecker.initial (fun _ => [])
        ["rare".data, "clear".data] [] =
      Spellchecker.load_builtin_dictionaries Spellchecker.initial (fun _ => [])
        ["clear".data, "rare".data, "clear".data] [] :=
  builtin_load_canonical_order (fun _ => []) []
    ["rare".data, "clear".data] ["clear".data, "rare".data, "clear".data]
    Spellchecker.initial (by decide)

/-- C7: escape-sequence suppression in the token loop of `spellcheck_line`.
For a token whose lowercased form is a dictionary key, preceded in the line
by a backslash and starting with one of the escape letters a, b, f, n, r, t,
v: when the lowercased token minus its first character is not itself a
dictionary key the token yields no detected issue, and when that tail is
itself a dictionary key the token is reported (provided no ignore list
applies). -/
theorem escape_suppression (misspellings : MisspellingTable)
    (ignore_words_cased extra_words_to_ignore : List Str) (line : Str)
    (token : Token) (m : Misspelling)
    (hlk : lookupTable misspellings (lower token.group) = some m)
    (hstart : 1 ≤ token.start)
    (hprev : line.get? (token.start - 1) = some '\\')
    (hesc : startsWithEscapeLetter token.group = true) :
    (lookupTable misspellings ((lower token.group).drop 1) = none →
      checkToken misspellings ignore_words_cased extra_words_to_ignore line
        token = none) ∧
    (∀ m', lookupTable misspellings ((lower token.group).drop 1) = some m' →
      token.group ∉ ignore_words_cased →
      lower token.group ∉ extra_words_to_ignore →
      checkToken misspellings ignore_words_cased extra_words_to_ignore line
        token = some ⟨token.group, lower token.group, m, token⟩) := by
  constructor
  · intro htail
    unfold checkToken
    by_cases hig : token.group ∈ ignore_words_cased
    · simp [hig]
    · simp only [hig, if_neg, if_false]
      rw [hlk]
      by_cases hex : lower token.group ∈ extra_words_to_ignore
      · simp [hex]
      · simp only [hex, if_false]
        rw [if_pos ⟨hstart, hprev, hesc, htail⟩]
  · intro m' htail hig hex
    unfold checkToken
    simp only [hig, if_false]
    rw [hlk]
    simp only [hex, if_false]
    rw [if_neg]
    intro hcond
    rw [hcond.2.2.2] at htail
    cases htail

/-- C7, witness: with `nabc` a dictionary key whose tail `abc` is not a key,
the token `nabc` at offset 6 of `x = '\nabc'` (directly preceded by a
backslash) is not reported. -/
theorem escape_suppression_witness :
    checkToken [("nabc".data, ⟨["nabcd".data], true, []⟩)] [] []
        ("x = '\\nabc'".data) ⟨"nabc".data, 6⟩ = none :=
  (escape_suppression [("nabc".data, ⟨["nabcd".data], true, []⟩)] [] []
      ("x = '\\nabc'".data) ⟨"nabc".data, 6⟩ ⟨["nabcd".data], true, []⟩
      (by decide) (by decide) (by decide) (by decide)).1 (by decide)

/-- C10: the escape-letter test is case-sensitive on the original token.
A token whose first character is uppercase never passes the
`word.startswith(("a","b","f","n","r","t","v"))` test, so when its lowercased
form is a dictionary key (and no ignore list applies) it is reported — even
when it is directly preceded by a backslash and its tail is not a key. -/
theorem escape_check_case_sensitive (misspellings : MisspellingTable)
    (ignore_words_cased extra_words_to_ignore : List Str) (line : Str)
    (token : Token) (m : Misspelling) (c : Char) (cs : Str)
    (hw : token.group = c :: cs)
    (hupper : c.isUpper = true)
    (hlk : lookupTable misspellings (lower token.group) = some m)
    (hig : token.group ∉ ignore_words_cased)
    (hex : lower token.group ∉ extra_words_to_ignore) :
    checkToken misspellings ignore_words_cased extra_words_to_ignore line
      token = some ⟨token.group, lower token.group, m, token⟩ := by
  have hesc : startsWithEscapeLetter token.group = false := by
    rw [hw]
    unfold startsWithEscapeLetter
    by_cases hcmem : c ∈ escapeLetters
    · exfalso
      have hc7 : c = 'a' ∨ c = 'b' ∨ c = 'f' ∨ c = 'n' ∨ c = 'r' ∨ c = 't' ∨
          c = 'v' := by simpa [escapeLetters] using hcmem
      rcases hc7 with rfl | rfl | rfl | rfl | rfl | rfl | rfl <;>
        exact absurd hupper (by decide)
    · simpa using hcmem
  unfold checkToken
  simp only [hig, if_false]
  rw [hlk]
  simp only [hex, if_false]
  rw [if_neg]
  intro hcond
  rw [hcond.2.2.1] at hesc
  cases hesc

/-- C10, witness: with `nabc` a dictionary key and tail `abc` not a key, the
token `Nabc` at offset 6 of `x = '\Nabc'` (directly preceded by a backslash)
IS reported, because its uppercase first letter fails the escape-letter
test. -/
theorem escape_check_case_sensitive_witness :
    checkToken [("nabc".data, ⟨["nabcd".data], true, []⟩)] [] []
        ("x = '\\Nabc'".data) ⟨"Nabc".data, 6⟩ =
      some ⟨"Nabc".data, lower ("Nabc".data), ⟨["nabcd".data], true, []⟩,
        ⟨"Nabc".data, 6⟩⟩ :=
  escape_check_case_sensitive [("nabc".data, ⟨["nabcd".data], true, []⟩)]
    [] [] ("x = '\\Nabc'".data) ⟨"Nabc".data, 6⟩ ⟨["nabcd".data], true, []⟩
    'N' ("abc".data) (by decide) (by decide) (by decide) (by decide)
    (by decide)

/-! ## The stored-record invariant (C8) -/

/-- The invariant of one stored record: candidates never empty, and an empty
reason whenever the record is a confident fix. -/
def RecordInv (m : Misspelling) : Prop :=
  m.candidates ≠ [] ∧ (m.fix = true → m.reason = [])

/-- The table invariant: every stored record satisfies `RecordInv`. -/
def TableInv (t : MisspellingTable) : Prop :=
  ∀ key m, lookupTable t key = some m → RecordInv m

theorem TableInv_nil : TableInv [] := by
  intro key m h
  cases h

theorem TableInv_tableSet (t : MisspellingTable) (key : Str) (v : Misspelling)
    (hv : RecordInv v) (ht : TableInv t) : TableInv (tableSet key v t) := by
  intro k m h
  simp only [tableSet, lookupTable] at h
  by_cases hk : k = key
  · rw [if_pos hk] at h
    cases h
    exact hv
  · rw [if_neg hk] at h
    exact ht k m h

theorem TableInv_add_misspelling (t : MisspellingTable) (key data : Str)
    (ht : TableInv t) : TableInv (_add_misspelling key data t) := by
  simp only [_add_misspelling]
  cases h : rsplitOnce ',' (strip data) with
  | some p =>
    simp only [h]
    refine TableInv_tableSet t key _ ⟨?_, ?_⟩ ht
    · simp only [ne_eq, List.map_eq_nil_iff]
      exact splitOnChar_ne_nil ',' p.1
    · intro hfix
      cases hfix
  | none =>
    simp only [h]
    refine TableInv_tableSet t key _ ⟨?_, ?_⟩ ht
    · simp only [ne_eq, List.map_eq_nil_iff]
      exact splitOnChar_ne_nil ',' (strip data)
    · intro _
      rfl

theorem TableInv_processDictLine (ignore_words : List Str)
    (t : MisspellingTable) (line : Str) (ht : TableInv t) :
    TableInv (processDictLine ignore_words t line).2 := by
  unfold processDictLine
  rcases splitOnArrow line with _ | ⟨a, _ | ⟨b, _ | _⟩⟩
  · exact ht
  · exact ht
  · simp only [alt_chars, List.foldl]
    split_ifs <;>
      first
        | exact ht
        | exact TableInv_add_misspelling _ _ _ ht
        | exact TableInv_add_misspelling _ _ _
            (TableInv_add_misspelling _ _ _ ht)
  · exact ht

theorem TableInv_loadDictLines (ignore_words : List Str) (lines : List Str)
    (t : MisspellingTable) (ht : TableInv t) :
    TableInv (loadDictLines ignore_words lines t).2 := by
  induction lines generalizing t with
  | nil => exact ht
  | cons line rest ih =>
    simp only [loadDictLines]
    have hp := TableInv_processDictLine ignore_words t line ht
    cases hl : processDictLine ignore_words t line with
    | mk e t' =>
      rw [hl] at hp
      cases e with
      | some err => exact hp
      | none => exact ih t' hp

theorem TableInv_load_builtin_list (files : Str → List Str)
    (ignore_words : List Str) (names : List Str) (t : MisspellingTable)
    (ht : TableInv t) :
    TableInv (loadBuiltinList files ignore_words names t).2 := by
  induction names generalizing t with
  | nil => exact ht
  | cons n ns ih =>
    simp only [loadBuiltinList]
    have hstep : TableInv (_load_builtin_dictionary files ignore_words n t).2 := by
      unfold _load_builtin_dictionary
      cases List.find? (fun b => b.name = n) _builtin_dictionaries with
      | some b => exact TableInv_loadDictLines ignore_words _ t ht
      | none => exact ht
    cases hl : _load_builtin_dictionary files ignore_words n t with
    | mk e t' =>
      rw [hl] at hstep
      cases e with
      | some err => exact hstep
      | none => exact ih t' hstep

theorem TableInv_applyOp (sc : Spellchecker) (op : LoadOp)
    (h : TableInv sc.misspellings) : TableInv (applyOp sc op).misspellings := by
  cases op with
  | fromFile file_lines ignore_words =>
    exact TableInv_loadDictLines ignore_words file_lines sc.misspellings h
  | builtins files names ignore_words =>
    simp only [applyOp, Spellchecker.load_builtin_dictionaries]
    by_cases hb : sc.builtin_loaded
    · simp only [hb, if_true]
      exact h
    · simp only [hb, Bool.false_eq_true, if_false]
      have hl := TableInv_load_builtin_list files ignore_words
        (sortedDedup names) sc.misspellings h
      cases hm : loadBuiltinList files ignore_words (sortedDedup names)
          sc.misspellings with
      | mk e t' =>
        rw [hm] at hl
        cases e with
        | some err => exact hl
        | none => exact hl

/-- C8: the stored-record invariant.  After any sequence of load operations
on a fresh engine, every record stored in the misspelling table has a
non-empty candidate sequence, and its reason is empty whenever its
confident-fix flag is set. -/
theorem stored_record_invariant (ops : List LoadOp) (key : Str)
    (m : Misspelling)
    (h : lookupTable (applyOps ops).misspellings key = some m) :
    m.candidates ≠ [] ∧ (m.fix = true → m.reason = []) := by
  have hinv : ∀ (l : List LoadOp) (sc : Spellchecker),
      TableInv sc.misspellings → TableInv (l.foldl applyOp sc).misspellings := by
    intro l
    induction l with
    | nil => intro sc hsc; exact hsc
    | cons op rest ih =>
      intro sc hsc
      exact ih (applyOp sc op) (TableInv_applyOp sc op hsc)
  exact hinv ops Spellchecker.initial TableInv_nil key m h

/-- C8, witness: the record stored by loading the single line `a->b` has a
(one-element, hence non-empty) candidate list, and its confident-fix flag is
set with an empty reason. -/
theorem stored_record_invariant_witness :
    (⟨["b".data], true, []⟩ : Misspelling).candidates ≠ [] ∧
    ((⟨["b".data], true, []⟩ : Misspelling).fix = true →
      (⟨["b".data], true, []⟩ : Misspelling).reason = []) :=
  stored_record_invariant [LoadOp.fromFile ["a->b".data] []] ("a".data)
    ⟨["b".data], true, []⟩ (by decide)

/-! ## Failure shape of the bulk built-in load (C9) -/

theorem loadBuiltinList_append (files : Str → List Str)
    (ignore_words : List Str) (l1 l2 : List Str) (t t1 : MisspellingTable)
    (h : loadBuiltinList files ignore_words l1 t = (none, t1)) :
    loadBuiltinList files ignore_words (l1 ++ l2) t =
      loadBuiltinList files ignore_words l2 t1 := by
  induction l1 generalizing t with
  | nil =>
    simp only [loadBuiltinList, Prod.mk.injEq] at h
    rw [List.nil_append, h.2]
  | cons n ns ih =>
    simp only [List.cons_append, loadBuiltinList] at h ⊢
    cases hl : _load_builtin_dictionary files ignore_words n t with
    | mk e t' =>
      rw [hl] at h
      cases e with
      | some err => simp at h
      | none => exact ih t' h

theorem find_builtin_eq_none (u : Str) (hu : isBuiltinName u = false) :
    List.find? (fun b => b.name = u) _builtin_dictionaries = none := by
  cases hf : List.find? (fun b => b.name = u) _builtin_dictionaries with
  | none => rfl
  | some b =>
    unfold isBuiltinName at hu
    rw [hf] at hu
    cases hu

theorem loadDictLines_fst_ne_already (ignore_words : List Str)
    (lines : List Str) (t : MisspellingTable) :
    (loadDictLines ignore_words lines t).1 ≠
      some LoadError.builtinAlreadyLoaded := by
  induction lines generalizing t with
  | nil => simp [loadDictLines]
  | cons line rest ih =>
    simp only [loadDictLines]
    have hshape : ∀ e, (processDictLine ignore_words t line).1 = some e →
        ∃ l, e = LoadError.malformedRecord l := by
      unfold processDictLine
      rcases splitOnArrow line with _ | ⟨a, _ | ⟨b, _ | _⟩⟩ <;> simp
    cases hp : processDictLine ignore_words t line with
    | mk e t' =>
      cases e with
      | some err =>
        rcases hshape err (by rw [hp]) with ⟨l, rfl⟩
        simp
      | none => exact ih t'

theorem loadBuiltinList_fst_ne_already (files : Str → List Str)
    (ignore_words : List Str) (names : List Str) (t : MisspellingTable) :
    (loadBuiltinList files ignore_words names t).1 ≠
      some LoadError.builtinAlreadyLoaded := by
  induction names generalizing t with
  | nil => simp [loadBuiltinList]
  | cons n ns ih =>
    simp only [loadBuiltinList]
    have hstep : (_load_builtin_dictionary files ignore_words n t).1 ≠
        some LoadError.builtinAlreadyLoaded := by
      unfold _load_builtin_dictionary
      cases List.find? (fun b => b.name = n) _builtin_dictionaries with
      | some b => exact loadDictLines_fst_ne_already ignore_words _ t
      | none => simp
    cases hl : _load_builtin_dictionary files ignore_words n t with
    | mk e t' =>
      rw [hl] at hstep
      cases e with
      | some err => exact hstep
      | none => exact ih t'

/-- C9: failing on an unknown built-in name is not atomic and does not seal.
If the sorted de-duplicated request decomposes as known names `pre` followed
by an unknown name `u`, and loading `pre` succeeds producing table `t'`, the
bulk load raises the unknown-dictionary error for `u` with every source of
`pre` already merged (the engine's table is `t'`), the engine remains
unsealed, and a subsequent bulk built-in load does not raise the
already-loaded error. -/
theorem unknown_builtin_not_atomic (files : Str → List Str)
    (ignore_words names : List Str) (sc : Spellchecker)
    (pre rest : List Str) (u : Str) (t' : MisspellingTable)
    (h0 : sc.builtin_loaded = false)
    (hdecomp : sortedDedup names = pre ++ u :: rest)
    (_hpre : ∀ n ∈ pre, isBuiltinName n = true)
    (hu : isBuiltinName u = false)
    (hload : loadBuiltinList files ignore_words pre sc.misspellings =
      (none, t')) :
    sc.load_builtin_dictionaries files names ignore_words =
      (some (.unknownBuiltinDictionary u), { sc with misspellings := t' }) ∧
    ({ sc with misspellings := t' } : Spellchecker).builtin_loaded = false ∧
    ∀ names2,
      (Spellchecker.load_builtin_dictionaries { sc with misspellings := t' }
        files names2 ignore_words).1 ≠ some LoadError.builtinAlreadyLoaded := by
  have hlist : loadBuiltinList files ignore_words (sortedDedup names)
      sc.misspellings = (some (.unknownBuiltinDictionary u), t') := by
    rw [hdecomp, loadBuiltinList_append files ignore_words pre (u :: rest)
      sc.misspellings t' hload]
    simp only [loadBuiltinList]
    unfold _load_builtin_dictionary
    rw [find_builtin_eq_none u hu]
  refine ⟨?_, h0, ?_⟩
  · unfold Spellchecker.load_builtin_dictionaries
    simp only [h0, Bool.false_eq_true, if_false]
    rw [hlist]
  · intro names2
    unfold Spellchecker.load_builtin_dictionaries
    simp only [h0, Bool.false_eq_true, if_false]
    have hne := loadBuiltinList_fst_ne_already files ignore_words
      (sortedDedup names2) t'
    cases hm : loadBuiltinList files ignore_words (sortedDedup names2) t' with
    | mk e t'' =>
      rw [hm] at hne
      cases e with
      | some err =>
        simp only []
        intro hcontra
        simp only [Option.some.injEq] at hcontra
        rw [hcontra] at hne
        exact hne rfl
      | none => simp

/-- C9, witness: requesting `zzz, clear` (with empty dictionary files) loads
`clear` first — it sorts before the unknown name `zzz` — and then fails for
`zzz`, leaving the engine unsealed with `clear` merged. -/
theorem unknown_builtin_not_atomic_witness :
    Spellchecker.load_builtin_dictionaries Spellchecker.initial (fun _ => [])
        ["zzz".data, "clear".data] [] =
      (some (.unknownBuiltinDictionary ("zzz".data)),
        { misspellings := [], builtin_loaded := false,
          ignore_words_cased := [] }) :=
  (unknown_builtin_not_atomic (fun _ => []) [] ["zzz".data, "clear".data]
    Spellchecker.initial ["clear".data] [] ("zzz".data) [] (by decide)
    (by decide) (by decide) (by decide) (by decide)).1

end Codespell
